import Mathlib

/-!
Verification of the Keep2Share segmented downloader.

The definitions below are a shallow embedding of the repository's Python
sources (`main.py`, `k2s.py`, `utils.py`): the segment planner and the
resume/assembly logic of `Downloader`, and the key-exchange loop of
`K2SAPI.generate_download_urls`.  Machine integers are modelled as `Int`
(Python integers are unbounded), file contents as `List Nat`, and the
filesystem as partial maps from chunk id to content.
-/

namespace K2S

/-- One entry of the `chunks` list built in `Downloader.start` (src/main.py,
step 5).  `stop` embeds the Python key `end` (a Lean keyword); `id` is the
loop index `i`, which also determines the part filename. -/
structure Chunk where
  id : Nat
  start : Int
  stop : Int
  size : Int
  deriving Repr, DecidableEq

/-- Exact ceiling of the rational `a / b`, embedding Python's
`math.ceil(a / b)` for `b ≠ 0`, via `⌈x⌉ = -⌊-x⌋` and floor division. -/
def ceilDiv (a b : Int) : Int := -((-a).fdiv b)

/-- `num_splits = math.ceil(total_size / self.split_size)` (main.py line 89). -/
def numSplits (total split : Int) : Int := ceilDiv total split

/-- The chunk the planning loop builds for index `i`:
`start = i * split_size`, `end = min((i + 1) * split_size - 1, total_size - 1)`,
`size = end - start + 1` (main.py lines 96-105). -/
def chunkOf (total split : Int) (i : Nat) : Chunk :=
  { id := i
    start := (i : Int) * split
    stop := min (((i : Int) + 1) * split - 1) (total - 1)
    size := min (((i : Int) + 1) * split - 1) (total - 1) - (i : Int) * split + 1 }

/-- The full chunk plan: `for i in range(num_splits)` (main.py lines 96-105). -/
def chunkPlan (total split : Int) : List Chunk :=
  (List.range (numSplits total split).toNat).map (chunkOf total split)

/-- The only failure the planning step can raise: Python's division
`total_size / self.split_size` raises `ZeroDivisionError` when the split
size is zero.  No other validation exists in `Downloader.start`. -/
inductive PlanError where
  | divisionByZero
  deriving Repr, DecidableEq

/-- Planning step of `Downloader.start`: divide (raising on a zero split
size), then build the chunk list. -/
def planChunks (total split : Int) : Except PlanError (List Chunk) :=
  if split = 0 then .error .divisionByZero
  else .ok (chunkPlan total split)

/-! ### Arithmetic facts about the planner -/

lemma numSplits_eq_neg_ediv (T s : Int) (hs : 0 < s) :
    numSplits T s = -((-T) / s) := by
  unfold numSplits ceilDiv
  rw [Int.fdiv_eq_ediv _ hs.le]

lemma le_numSplits_mul (T s : Int) (hs : 0 < s) :
    T ≤ numSplits T s * s := by
  rw [numSplits_eq_neg_ediv T s hs]
  have h := Int.ediv_mul_le (-T) hs.ne'
  linarith [neg_mul ((-T) / s) s]

lemma numSplits_pred_mul_lt (T s : Int) (hs : 0 < s) :
    (numSplits T s - 1) * s < T := by
  rw [numSplits_eq_neg_ediv T s hs]
  have h := Int.lt_ediv_add_one_mul_self (-T) hs
  nlinarith

lemma numSplits_pos (T s : Int) (hT : 0 < T) (hs : 0 < s) :
    0 < numSplits T s := by
  have h := le_numSplits_mul T s hs
  nlinarith

lemma length_chunkPlan (T s : Int) :
    (chunkPlan T s).length = (numSplits T s).toNat := by
  simp [chunkPlan]

lemma get_chunkPlan (T s : Int) (i : Nat) (hi : i < (chunkPlan T s).length) :
    (chunkPlan T s).get ⟨i, hi⟩ = chunkOf T s i := by
  simp [chunkPlan]

lemma lt_numSplits_of_lt_length (T s : Int) (i : Nat)
    (hi : i < (chunkPlan T s).length) : (i : Int) < numSplits T s := by
  rw [length_chunkPlan] at hi
  omega

lemma mul_lt_of_lt_numSplits (T s : Int) (hT : 0 < T) (hs : 0 < s)
    {i : Int} (hi : i < numSplits T s) : i * s < T := by
  have h1 : i ≤ numSplits T s - 1 := by omega
  have h2 : i * s ≤ (numSplits T s - 1) * s :=
    mul_le_mul_of_nonneg_right h1 hs.le
  have := numSplits_pred_mul_lt T s hs
  linarith

/-- For a non-final chunk the `min` resolves to the split boundary. -/
lemma stop_of_succ_lt (T s : Int) (hT : 0 < T) (hs : 0 < s) (i : Nat)
    (hi : (i : Int) + 1 < numSplits T s) :
    (chunkOf T s i).stop = ((i : Int) + 1) * s - 1 := by
  unfold chunkOf
  have h := mul_lt_of_lt_numSplits T s hT hs hi
  simp only []
  exact min_eq_left (by linarith)

/-- For the final chunk the `min` resolves to the file end. -/
lemma stop_of_succ_eq (T s : Int) (hT : 0 < T) (hs : 0 < s) (i : Nat)
    (hi : (i : Int) + 1 = numSplits T s) :
    (chunkOf T s i).stop = T - 1 := by
  unfold chunkOf
  have h := le_numSplits_mul T s hs
  rw [hi]
  simp only []
  exact min_eq_right (by linarith)

lemma start_le_stop (T s : Int) (hT : 0 < T) (hs : 0 < s) (i : Nat)
    (hi : (i : Int) < numSplits T s) :
    (chunkOf T s i).start ≤ (chunkOf T s i).stop := by
  unfold chunkOf
  have h := mul_lt_of_lt_numSplits T s hT hs hi
  simp only []
  refine le_min (by linarith) (by linarith)

/-- Telescoping sum over an initial segment of the naturals. -/
lemma telescope_sum (f : Nat → Int) :
    ∀ n : Nat, ((List.range n).map fun i => f (i + 1) - f i).sum = f n - f 0 := by
  intro n
  induction n with
  | zero => simp
  | succ n ih =>
      rw [List.range_succ, List.map_append, List.sum_append, ih]
      simp only [List.map_cons, List.map_nil, List.sum_cons, List.sum_nil]
      ring

/-- Each chunk's size is a difference of the clamped boundary function
`B i = min (i * s) T`. -/
lemma size_eq_boundary (T s : Int) (hT : 0 < T) (hs : 0 < s) (i : Nat)
    (hi : (i : Int) < numSplits T s) :
    (chunkOf T s i).size
      = min (((i : Int) + 1) * s) T - min ((i : Int) * s) T := by
  unfold chunkOf
  have h := mul_lt_of_lt_numSplits T s hT hs hi
  have h2 : min ((i : Int) * s) T = (i : Int) * s := min_eq_left (by linarith)
  have h3 : min (((i : Int) + 1) * s - 1) (T - 1)
      = min (((i : Int) + 1) * s) T - 1 := by
    rw [← min_sub_sub_right]
  simp only []
  rw [h3, h2]
  ring

/-- C1: for every `totalSize > 0` and `targetChunkSize > 0` the plan of
`Downloader.start` partitions `[0, totalSize)` exactly: the plan is
nonempty, chunk `i` carries id `i` (so chunks are ordered by id),
consecutive chunks are contiguous (`stop + 1 = start` of the next),
distinct chunks do not overlap, the chunk sizes sum to `totalSize`, the
first chunk starts at `0`, and the last chunk ends at `totalSize - 1`. -/
theorem chunkPlan_partitions (T s : Int) (hT : 0 < T) (hs : 0 < s) :
    0 < (chunkPlan T s).length ∧
    (∀ i : Nat, ∀ hi : i < (chunkPlan T s).length,
      ((chunkPlan T s).get ⟨i, hi⟩).id = i) ∧
    (∀ i : Nat, ∀ hi : i + 1 < (chunkPlan T s).length,
      ((chunkPlan T s).get ⟨i, Nat.lt_of_succ_lt hi⟩).stop + 1 =
        ((chunkPlan T s).get ⟨i + 1, hi⟩).start) ∧
    (∀ i j : Nat, ∀ hi : i < (chunkPlan T s).length,
      ∀ hj : j < (chunkPlan T s).length, i < j →
      ((chunkPlan T s).get ⟨i, hi⟩).stop < ((chunkPlan T s).get ⟨j, hj⟩).start) ∧
    ((chunkPlan T s).map Chunk.size).sum = T ∧
    (∀ h0 : 0 < (chunkPlan T s).length,
      ((chunkPlan T s).get ⟨0, h0⟩).start = 0) ∧
    (∀ h0 : 0 < (chunkPlan T s).length,
      ((chunkPlan T s).get
        ⟨(chunkPlan T s).length - 1, Nat.sub_lt h0 Nat.one_pos⟩).stop = T - 1) := by
  have hn := numSplits_pos T s hT hs
  have hlen : (chunkPlan T s).length = (numSplits T s).toNat :=
    length_chunkPlan T s
  have hlenpos : 0 < (chunkPlan T s).length := by rw [hlen]; omega
  refine ⟨hlenpos, ?_, ?_, ?_, ?_, ?_, ?_⟩
  · intro i hi
    rw [get_chunkPlan]
    rfl
  · intro i hi
    rw [get_chunkPlan, get_chunkPlan]
    have hi1 : ((i : Int) + 1) < numSplits T s := by
      have := lt_numSplits_of_lt_length T s (i + 1) hi
      push_cast at this ⊢
      omega
    rw [stop_of_succ_lt T s hT hs i hi1]
    unfold chunkOf
    push_cast
    ring
  · intro i j hi hj hij
    rw [get_chunkPlan, get_chunkPlan]
    have hi1 : ((i : Int) + 1) ≤ (j : Int) := by exact_mod_cast hij
    have hjn := lt_numSplits_of_lt_length T s j hj
    unfold chunkOf
    simp only []
    have h1 : min (((i : Int) + 1) * s - 1) (T - 1) ≤ ((i : Int) + 1) * s - 1 :=
      min_le_left _ _
    have h2 : ((i : Int) + 1) * s ≤ (j : Int) * s :=
      mul_le_mul_of_nonneg_right hi1 hs.le
    linarith
  · have hmap : (chunkPlan T s).map Chunk.size
        = (List.range (numSplits T s).toNat).map
            (fun i : Nat => min (((i : Int) + 1) * s) T - min ((i : Int) * s) T) := by
      unfold chunkPlan
      rw [List.map_map]
      refine List.map_congr_left ?_
      intro i hi
      have hilt : (i : Int) < numSplits T s := by
        rw [List.mem_range] at hi
        omega
      exact size_eq_boundary T s hT hs i hilt
    rw [hmap]
    simp only [← Nat.cast_add_one]
    rw [telescope_sum (fun i : Nat => min ((i : Int) * s) T) (numSplits T s).toNat]
    have hz : min ((0 : Int) * s) T = 0 := by
      rw [zero_mul]
      exact min_eq_left hT.le
    have hn' : (((numSplits T s).toNat : Int)) = numSplits T s := by omega
    have hT' : min (((numSplits T s).toNat : Int) * s) T = T := by
      rw [hn']
      exact min_eq_right (le_numSplits_mul T s hs)
    simp only [Nat.cast_zero] at *
    rw [hT', hz]
    ring
  · intro h0
    rw [get_chunkPlan]
    unfold chunkOf
    simp
  · intro h0
    rw [get_chunkPlan]
    have hi1 : (((chunkPlan T s).length - 1 : Nat) : Int) + 1 = numSplits T s := by
      rw [hlen] at *
      omega
    exact stop_of_succ_eq T s hT hs _ hi1

/-- Witness for C1 at the spec's own scenario scaled down:
`totalSize = 45`, `targetChunkSize = 20` (three chunks). -/
theorem chunkPlan_partitions_witness :
    (0 : Int) < 45 ∧ (0 : Int) < 20 ∧
    (0 < (chunkPlan 45 20).length ∧
    (∀ i : Nat, ∀ hi : i < (chunkPlan 45 20).length,
      ((chunkPlan 45 20).get ⟨i, hi⟩).id = i) ∧
    (∀ i : Nat, ∀ hi : i + 1 < (chunkPlan 45 20).length,
      ((chunkPlan 45 20).get ⟨i, Nat.lt_of_succ_lt hi⟩).stop + 1 =
        ((chunkPlan 45 20).get ⟨i + 1, hi⟩).start) ∧
    (∀ i j : Nat, ∀ hi : i < (chunkPlan 45 20).length,
      ∀ hj : j < (chunkPlan 45 20).length, i < j →
      ((chunkPlan 45 20).get ⟨i, hi⟩).stop < ((chunkPlan 45 20).get ⟨j, hj⟩).start) ∧
    ((chunkPlan 45 20).map Chunk.size).sum = 45 ∧
    (∀ h0 : 0 < (chunkPlan 45 20).length,
      ((chunkPlan 45 20).get ⟨0, h0⟩).start = 0) ∧
    (∀ h0 : 0 < (chunkPlan 45 20).length,
      ((chunkPlan 45 20).get
        ⟨(chunkPlan 45 20).length - 1, Nat.sub_lt h0 Nat.one_pos⟩).stop = 45 - 1)) :=
  ⟨by norm_num, by norm_num, chunkPlan_partitions 45 20 (by norm_num) (by norm_num)⟩

/-- C3 counterexample: the degenerate input `totalSize = 0, targetChunkSize = 5`
is not rejected with any error; the planner returns an (empty) plan. -/
theorem planChunks_degenerate_not_rejected :
    planChunks 0 5 = .ok [] ∧ ∀ e : PlanError, planChunks 0 5 ≠ .error e :=
  ⟨rfl, fun _ h => Except.noConfusion h⟩

/-- C3 amended: `Downloader.start` performs no input validation.  A
nonpositive `totalSize` with a positive `targetChunkSize` silently yields an
empty plan, and `targetChunkSize = 0` surfaces as an unhandled
division-by-zero from `math.ceil(total_size / split_size)`, not as a
dedicated InvalidPlan rejection. -/
theorem planChunks_degenerate_behaviour :
    (∀ T s : Int, T ≤ 0 → 0 < s → planChunks T s = .ok []) ∧
    (∀ T : Int, planChunks T 0 = .error .divisionByZero) := by
  constructor
  · intro T s hT hs
    have h1 : 0 ≤ (-T).fdiv s := Int.fdiv_nonneg (by omega) hs.le
    have h2 : numSplits T s ≤ 0 := by
      unfold numSplits ceilDiv
      omega
    unfold planChunks
    rw [if_neg hs.ne']
    unfold chunkPlan
    rw [Int.toNat_of_nonpos h2]
    rfl
  · intro T
    unfold planChunks
    simp

/-- Witness for the amended C3 at `totalSize = 0, chunkSize = 5` and at
`totalSize = 7, chunkSize = 0`. -/
theorem planChunks_degenerate_behaviour_witness :
    (0 : Int) ≤ 0 ∧ (0 : Int) < 5 ∧
    planChunks 0 5 = .ok [] ∧ planChunks 7 0 = .error .divisionByZero :=
  ⟨le_refl 0, by norm_num,
    planChunks_degenerate_behaviour.1 0 5 (le_refl 0) (by norm_num),
    planChunks_degenerate_behaviour.2 7⟩

/-! ### Filesystem model and the assembler (`Downloader._assemble_file`) -/

/-- Disk state visible to the assembler: the destination file's content (if
the file exists) and, per chunk id, the part file's content (if it exists).
Part files are keyed by chunk id because their names are determined by it. -/
structure FS where
  dest : Option (List Nat)
  parts : Nat → Option (List Nat)

/-- Result of one assembly run: success, or early return at the first
missing part (`print(f"Missing chunk {id}!"); return`). -/
inductive AsmResult where
  | complete
  | missing (id : Nat)
  deriving Repr, DecidableEq

/-- The chunk loop of `_assemble_file` (main.py lines 166-174): for each
chunk in order, if its part file exists, append the part's bytes to the
output file and delete the part; otherwise report the chunk and return.
Returns the bytes written, the surviving part files, and the result. -/
def assembleGo (parts : Nat → Option (List Nat)) (acc : List Nat) :
    List Chunk → List Nat × (Nat → Option (List Nat)) × AsmResult
  | [] => (acc, parts, .complete)
  | c :: rest =>
    match parts c.id with
    | some bytes =>
        assembleGo (fun j => if j = c.id then none else parts j) (acc ++ bytes) rest
    | none => (acc, parts, .missing c.id)

/-- `_assemble_file` (main.py lines 161-176): remove the destination if it
exists, open it for writing (creating it empty), then run the chunk loop.
Whatever was written when the loop stops is the destination's content. -/
def assembleFile (cs : List Chunk) (fs : FS) : FS × AsmResult :=
  let r := assembleGo fs.parts [] cs
  ({ dest := some r.1, parts := r.2.1 }, r.2.2)

/-- Concatenation of the given per-chunk contents in plan order. -/
def concatParts (w : Chunk → List Nat) : List Chunk → List Nat
  | [] => []
  | c :: rest => w c ++ concatParts w rest

/-- Deleting part files never recreates one: a missing part stays missing
through the assembly loop. -/
lemma assembleGo_none_mono (cs : List Chunk) :
    ∀ (parts : Nat → Option (List Nat)) (acc : List Nat) (k : Nat),
      parts k = none → (assembleGo parts acc cs).2.1 k = none := by
  induction cs with
  | nil => intro parts acc k hk; simpa [assembleGo] using hk
  | cons c rest ih =>
      intro parts acc k hk
      unfold assembleGo
      cases hc : parts c.id with
      | none => simpa [assembleGo] using hk
      | some bytes =>
          simp only []
          exact ih _ _ k (by by_cases h : k = c.id <;> simp [h, hk])

/-- When every chunk's part is present (with pairwise distinct ids), the
loop completes, writes the concatenation after the accumulator, and deletes
every consumed part. -/
lemma assembleGo_all_present (cs : List Chunk) :
    ∀ (parts : Nat → Option (List Nat)) (acc : List Nat) (w : Chunk → List Nat),
      (cs.map Chunk.id).Nodup →
      (∀ c ∈ cs, parts c.id = some (w c)) →
      (assembleGo parts acc cs).1 = acc ++ concatParts w cs ∧
      (assembleGo parts acc cs).2.2 = .complete ∧
      (∀ c ∈ cs, (assembleGo parts acc cs).2.1 c.id = none) := by
  induction cs with
  | nil =>
      intro parts acc w _ _
      simp [assembleGo, concatParts]
  | cons c rest ih =>
      intro parts acc w hnd hall
      have hc : parts c.id = some (w c) := hall c (List.mem_cons_self c rest)
      have hnd' : (rest.map Chunk.id).Nodup := (List.nodup_cons.mp hnd).2
      have hid : c.id ∉ rest.map Chunk.id := (List.nodup_cons.mp hnd).1
      have hall' : ∀ x ∈ rest,
          (fun j => if j = c.id then none else parts j) x.id = some (w x) := by
        intro x hx
        have hne : x.id ≠ c.id := by
          intro h
          exact hid (h ▸ List.mem_map_of_mem Chunk.id hx)
        simp [hne, hall x (List.mem_cons_of_mem c hx)]
      have hrec := ih (fun j => if j = c.id then none else parts j)
        (acc ++ w c) w hnd' hall'
      unfold assembleGo
      rw [hc]
      simp only []
      refine ⟨?_, hrec.2.1, ?_⟩
      · rw [hrec.1, concatParts, List.append_assoc]
      · intro x hx
        rcases List.mem_cons.mp hx with hx | hx
        · subst hx
          exact assembleGo_none_mono rest _ _ _ (by simp)
        · exact hrec.2.2 x hx

/-- The assembly loop on a present prefix followed by a missing part:
the prefix is written out, then the loop stops and reports the missing id. -/
lemma assembleGo_prefix_missing (c : Chunk) (rest : List Chunk)
    (w : Chunk → List Nat) (pre : List Chunk) :
    ∀ (parts : Nat → Option (List Nat)) (acc : List Nat),
      (pre.map Chunk.id).Nodup →
      (∀ x ∈ pre, parts x.id = some (w x)) →
      parts c.id = none →
      (assembleGo parts acc (pre ++ c :: rest)).1 = acc ++ concatParts w pre ∧
      (assembleGo parts acc (pre ++ c :: rest)).2.2 = .missing c.id := by
  induction pre with
  | nil =>
      intro parts acc _ _ hc
      rw [List.nil_append]
      unfold assembleGo
      rw [hc]
      simp [concatParts]
  | cons p pre' ih =>
      intro parts acc hnd hpre hc
      have hp : parts p.id = some (w p) := hpre p (List.mem_cons_self p pre')
      have hnd' : (pre'.map Chunk.id).Nodup := (List.nodup_cons.mp hnd).2
      have hpid : p.id ∉ pre'.map Chunk.id := (List.nodup_cons.mp hnd).1
      have hpre' : ∀ x ∈ pre',
          (fun j => if j = p.id then none else parts j) x.id = some (w x) := by
        intro x hx
        have hne : x.id ≠ p.id := by
          intro h
          exact hpid (h ▸ List.mem_map_of_mem Chunk.id hx)
        simp [hne, hpre x (List.mem_cons_of_mem p hx)]
      have hc' : (fun j => if j = p.id then none else parts j) c.id = none := by
        by_cases h : c.id = p.id <;> simp [h, hc]
      have hrec := ih (fun j => if j = p.id then none else parts j)
        (acc ++ w p) hnd' hpre' hc'
      rw [List.cons_append]
      unfold assembleGo
      rw [hp]
      simp only []
      exact ⟨by rw [hrec.1, concatParts, List.append_assoc], hrec.2⟩

/-- C2 counterexample: with one required part missing and a pre-existing
destination file holding `[9, 9]`, `_assemble_file` reports the missing
chunk but has already replaced the destination: its prior content is gone
(the file is left empty), contradicting "the destination file's prior
content is left unchanged". -/
theorem assembleFile_touches_dest_on_missing :
    (assembleFile [⟨0, 0, 1, 2⟩]
        ⟨some [9, 9], fun _ => none⟩).2 = .missing 0 ∧
    (assembleFile [⟨0, 0, 1, 2⟩]
        ⟨some [9, 9], fun _ => none⟩).1.dest = some [] ∧
    (assembleFile [⟨0, 0, 1, 2⟩]
        ⟨some [9, 9], fun _ => none⟩).1.dest
      ≠ (⟨some [9, 9], fun _ => none⟩ : FS).dest := by
  refine ⟨rfl, rfl, ?_⟩
  intro h
  simp only [assembleFile, assembleGo] at h
  exact absurd (Option.some.inj h) (by decide)

/-- C2 amended: when a required part file is missing, assembly stops at the
first missing chunk and reports its id — but only after it has deleted the
destination's prior content and written every preceding part into it
(a partial overwrite).  Part-file sizes are never checked. -/
theorem assembleFile_missing_partial_overwrite
    (pre : List Chunk) (c : Chunk) (rest : List Chunk) (fs : FS)
    (w : Chunk → List Nat)
    (hnd : (pre.map Chunk.id).Nodup)
    (hpre : ∀ x ∈ pre, fs.parts x.id = some (w x))
    (hc : fs.parts c.id = none) :
    (assembleFile (pre ++ c :: rest) fs).2 = .missing c.id ∧
    (assembleFile (pre ++ c :: rest) fs).1.dest = some (concatParts w pre) := by
  have h := assembleGo_prefix_missing c rest w pre fs.parts [] hnd hpre hc
  unfold assembleFile
  simp only []
  exact ⟨h.2, by rw [h.1, List.nil_append]⟩

/-- Witness for the amended C2: part 0 present with two bytes, part 1
missing; the run reports chunk 1 and the destination holds part 0's bytes. -/
theorem assembleFile_missing_partial_overwrite_witness :
    (assembleFile [⟨0, 0, 1, 2⟩, ⟨1, 2, 3, 2⟩]
        ⟨none, fun j => if j = 0 then some [5, 6] else none⟩).2 = .missing 1 ∧
    (assembleFile [⟨0, 0, 1, 2⟩, ⟨1, 2, 3, 2⟩]
        ⟨none, fun j => if j = 0 then some [5, 6] else none⟩).1.dest
      = some (concatParts (fun _ => [5, 6]) [⟨0, 0, 1, 2⟩]) :=
  assembleFile_missing_partial_overwrite
    [⟨0, 0, 1, 2⟩] ⟨1, 2, 3, 2⟩ [] _ (fun _ => [5, 6])
    (by simp)
    (by intro x hx; simp only [List.mem_singleton] at hx; subst hx; rfl)
    rfl

/-- C6 counterexample: a complete one-chunk set assembles to `[1, 2]`, but
running assembly a second time on the resulting state yields an empty
destination and a missing-chunk report — the two runs' outputs differ, so
repeating assembly is not safe. -/
theorem assembleFile_twice_differs :
    (assembleFile [⟨0, 0, 1, 2⟩]
        ⟨none, fun j => if j = 0 then some [1, 2] else none⟩).2 = .complete ∧
    (assembleFile [⟨0, 0, 1, 2⟩]
        ⟨none, fun j => if j = 0 then some [1, 2] else none⟩).1.dest = some [1, 2] ∧
    (assembleFile [⟨0, 0, 1, 2⟩]
        (assembleFile [⟨0, 0, 1, 2⟩]
          ⟨none, fun j => if j = 0 then some [1, 2] else none⟩).1).2 = .missing 0 ∧
    (assembleFile [⟨0, 0, 1, 2⟩]
        (assembleFile [⟨0, 0, 1, 2⟩]
          ⟨none, fun j => if j = 0 then some [1, 2] else none⟩).1).1.dest = some [] ∧
    some ([] : List Nat) ≠ some [1, 2] := by
  refine ⟨rfl, rfl, rfl, rfl, by decide⟩

/-- When the first chunk's part is already gone, assembly fails at once and
leaves the destination empty. -/
lemma assembleFile_head_missing (c : Chunk) (rest : List Chunk) (fs : FS)
    (hc : fs.parts c.id = none) :
    (assembleFile (c :: rest) fs).2 = .missing c.id ∧
    (assembleFile (c :: rest) fs).1.dest = some [] := by
  unfold assembleFile assembleGo
  rw [hc]
  exact ⟨rfl, rfl⟩

/-- C6 amended: one assembly run on a complete, valid chunk set succeeds,
writes the concatenation of the parts, and deletes every part file as it is
consumed; a second run therefore finds the first part missing, truncates
the destination to empty, and reports the first chunk id.  Repeating
assembly is not safe and does not reproduce the output. -/
theorem assembleFile_consumes_parts (c : Chunk) (rest : List Chunk) (fs : FS)
    (w : Chunk → List Nat)
    (hnd : ((c :: rest).map Chunk.id).Nodup)
    (hall : ∀ x ∈ c :: rest, fs.parts x.id = some (w x)) :
    (assembleFile (c :: rest) fs).2 = .complete ∧
    (assembleFile (c :: rest) fs).1.dest = some (concatParts w (c :: rest)) ∧
    (∀ x ∈ c :: rest, (assembleFile (c :: rest) fs).1.parts x.id = none) ∧
    (assembleFile (c :: rest) ((assembleFile (c :: rest) fs).1)).2 = .missing c.id ∧
    (assembleFile (c :: rest) ((assembleFile (c :: rest) fs).1)).1.dest = some [] := by
  have h := assembleGo_all_present (c :: rest) fs.parts [] w hnd hall
  have hparts : ∀ x ∈ c :: rest, (assembleFile (c :: rest) fs).1.parts x.id = none := by
    intro x hx
    simpa [assembleFile] using h.2.2 x hx
  have hc0 : (assembleFile (c :: rest) fs).1.parts c.id = none :=
    hparts c (List.mem_cons_self c rest)
  have h2 := assembleFile_head_missing c rest ((assembleFile (c :: rest) fs).1) hc0
  exact ⟨by simpa [assembleFile] using h.2.1,
         by simpa [assembleFile] using h.1, hparts, h2.1, h2.2⟩

/-- Witness for the amended C6 at a concrete one-chunk state. -/
theorem assembleFile_consumes_parts_witness :
    (assembleFile [⟨0, 0, 1, 2⟩]
        ⟨none, fun j => if j = 0 then some [7, 8] else none⟩).2 = .complete ∧
    (assembleFile [⟨0, 0, 1, 2⟩]
        ⟨none, fun j => if j = 0 then some [7, 8] else none⟩).1.dest
      = some (concatParts (fun _ => [7, 8]) [⟨0, 0, 1, 2⟩]) ∧
    (∀ x ∈ [(⟨0, 0, 1, 2⟩ : Chunk)],
      (assembleFile [⟨0, 0, 1, 2⟩]
        ⟨none, fun j => if j = 0 then some [7, 8] else none⟩).1.parts x.id = none) ∧
    (assembleFile [⟨0, 0, 1, 2⟩]
        (assembleFile [⟨0, 0, 1, 2⟩]
          ⟨none, fun j => if j = 0 then some [7, 8] else none⟩).1).2 = .missing 0 ∧
    (assembleFile [⟨0, 0, 1, 2⟩]
        (assembleFile [⟨0, 0, 1, 2⟩]
          ⟨none, fun j => if j = 0 then some [7, 8] else none⟩).1).1.dest = some [] :=
  assembleFile_consumes_parts ⟨0, 0, 1, 2⟩ [] _ (fun _ => [7, 8])
    (by simp)
    (by intro x hx; simp only [List.mem_singleton] at hx; subst hx; rfl)

/-! ### Resume check of the download loop (`Downloader.start`, step 6) -/

/-- The scheduling loop of `Downloader.start` (main.py lines 112-123): a
chunk whose part file exists with exactly the planned size is skipped; an
existing part of any other size is deleted and the chunk is scheduled; a
chunk with no part file is scheduled.  Returns the scheduled chunks (in
order, each of which becomes one ranged network request) and the disk state
after the loop. -/
def resumeFilter : List Chunk → (Nat → Option (List Nat)) →
    List Chunk × (Nat → Option (List Nat))
  | [], parts => ([], parts)
  | c :: rest, parts =>
    match parts c.id with
    | some bytes =>
        if (bytes.length : Int) = c.size then
          resumeFilter rest parts
        else
          let r := resumeFilter rest (fun j => if j = c.id then none else parts j)
          (c :: r.1, r.2)
    | none =>
        let r := resumeFilter rest parts
        (c :: r.1, r.2)

/-- Every scheduled chunk comes from the plan. -/
lemma resumeFilter_sub (cs : List Chunk) :
    ∀ (parts : Nat → Option (List Nat)), (resumeFilter cs parts).1 ⊆ cs := by
  induction cs with
  | nil => intro parts; simp [resumeFilter]
  | cons c rest ih =>
      intro parts
      unfold resumeFilter
      cases hp : parts c.id with
      | some bytes =>
          by_cases hsz : (bytes.length : Int) = c.size
          · simp only [hsz, if_pos]
            exact (ih parts).trans (List.subset_cons_self c rest)
          · simp only [hsz, if_neg, not_false_iff]
            exact List.cons_subset_cons c (ih _)
      | none =>
          simp only []
          exact List.cons_subset_cons c (ih parts)

/-- The resume loop never recreates a deleted or absent part file. -/
lemma resumeFilter_none_mono (cs : List Chunk) :
    ∀ (parts : Nat → Option (List Nat)) (k : Nat),
      parts k = none → (resumeFilter cs parts).2 k = none := by
  induction cs with
  | nil => intro parts k hk; simpa [resumeFilter] using hk
  | cons c rest ih =>
      intro parts k hk
      unfold resumeFilter
      cases hp : parts c.id with
      | some bytes =>
          by_cases hsz : (bytes.length : Int) = c.size
          · simp only [hsz, if_pos]
            exact ih parts k hk
          · simp only [hsz, if_neg, not_false_iff]
            exact ih _ k (by by_cases h : k = c.id <;> simp [h, hk])
      | none =>
          simp only []
          exact ih parts k hk

/-- The resume loop touches only part files named by the ids it visits. -/
lemma resumeFilter_preserves (cs : List Chunk) :
    ∀ (parts : Nat → Option (List Nat)) (k : Nat),
      k ∉ cs.map Chunk.id → (resumeFilter cs parts).2 k = parts k := by
  induction cs with
  | nil => intro parts k _; simp [resumeFilter]
  | cons c rest ih =>
      intro parts k hk
      have hkc : k ≠ c.id := by
        intro h; exact hk (by simp [h])
      have hkr : k ∉ rest.map Chunk.id := by
        intro h; exact hk (List.mem_cons_of_mem _ h)
      unfold resumeFilter
      cases hp : parts c.id with
      | some bytes =>
          by_cases hsz : (bytes.length : Int) = c.size
          · simp only [hsz, if_pos]
            exact ih parts k hkr
          · simp only [hsz, if_neg, not_false_iff]
            rw [ih _ k hkr]
            simp [hkc]
      | none =>
          simp only []
          exact ih parts k hkr

/-- When every part file matches its planned size, the resume loop
schedules nothing and leaves the disk untouched. -/
lemma resumeFilter_all_match (cs : List Chunk) :
    ∀ (parts : Nat → Option (List Nat)),
      (∀ c ∈ cs, ∃ b, parts c.id = some b ∧ (b.length : Int) = c.size) →
      resumeFilter cs parts = ([], parts) := by
  induction cs with
  | nil => intro parts _; rfl
  | cons c rest ih =>
      intro parts hall
      obtain ⟨b, hb, hsz⟩ := hall c (List.mem_cons_self c rest)
      unfold resumeFilter
      rw [hb]
      simp only [hsz, if_pos]
      exact ih parts (fun x hx => hall x (List.mem_cons_of_mem c hx))

/-- Step equation: a part of exactly the planned size is skipped. -/
lemma resumeFilter_cons_skip (c : Chunk) (rest : List Chunk)
    (parts : Nat → Option (List Nat)) (b : List Nat)
    (hb : parts c.id = some b) (hsz : (b.length : Int) = c.size) :
    resumeFilter (c :: rest) parts = resumeFilter rest parts := by
  conv_lhs => unfold resumeFilter
  rw [hb]
  simp only [hsz, if_pos]

/-- Step equation: a part of the wrong size is deleted and the chunk is
scheduled. -/
lemma resumeFilter_cons_del (c : Chunk) (rest : List Chunk)
    (parts : Nat → Option (List Nat)) (b : List Nat)
    (hb : parts c.id = some b) (hsz : ¬((b.length : Int) = c.size)) :
    resumeFilter (c :: rest) parts =
      (c :: (resumeFilter rest (fun j => if j = c.id then none else parts j)).1,
        (resumeFilter rest (fun j => if j = c.id then none else parts j)).2) := by
  conv_lhs => unfold resumeFilter
  rw [hb]
  simp only [hsz, if_neg, not_false_iff]

/-- Step equation: a chunk with no part file is scheduled. -/
lemma resumeFilter_cons_missing (c : Chunk) (rest : List Chunk)
    (parts : Nat → Option (List Nat)) (hb : parts c.id = none) :
    resumeFilter (c :: rest) parts =
      (c :: (resumeFilter rest parts).1, (resumeFilter rest parts).2) := by
  conv_lhs => unfold resumeFilter
  rw [hb]

/-- A chunk whose part file already has exactly the planned size is never
scheduled for download. -/
lemma resumeFilter_not_mem_of_match (cs : List Chunk) :
    ∀ (parts : Nat → Option (List Nat)), (cs.map Chunk.id).Nodup →
      ∀ c ∈ cs, ∀ b, parts c.id = some b → (b.length : Int) = c.size →
        c ∉ (resumeFilter cs parts).1 := by
  induction cs with
  | nil => intro parts _ c hc; cases hc
  | cons x rest ih =>
      intro parts hnd c hc b hb hsz
      have hnd' := (List.nodup_cons.mp hnd).2
      have hxid := (List.nodup_cons.mp hnd).1
      rcases List.mem_cons.mp hc with hcx | hcr
      · subst hcx
        rw [resumeFilter_cons_skip c rest parts b hb hsz]
        intro hmem
        exact hxid (List.mem_map_of_mem Chunk.id (resumeFilter_sub rest parts hmem))
      · have hcid_ne : c.id ≠ x.id := by
          intro h
          exact hxid (h ▸ List.mem_map_of_mem Chunk.id hcr)
        have hcx_ne : c ≠ x := fun h => hcid_ne (by rw [h])
        cases hp : parts x.id with
        | some bx =>
            by_cases hszx : (bx.length : Int) = x.size
            · rw [resumeFilter_cons_skip x rest parts bx hp hszx]
              exact ih parts hnd' c hcr b hb hsz
            · rw [resumeFilter_cons_del x rest parts bx hp hszx]
              intro hmem
              rcases List.mem_cons.mp hmem with h | h
              · exact hcx_ne h
              · have hb' : (fun j => if j = x.id then none else parts j) c.id
                    = some b := by simp [hcid_ne, hb]
                exact ih _ hnd' c hcr b hb' hsz h
        | none =>
            rw [resumeFilter_cons_missing x rest parts hp]
            intro hmem
            rcases List.mem_cons.mp hmem with h | h
            · exact hcx_ne h
            · exact ih parts hnd' c hcr b hb hsz h

/-- C8: a part file whose size equals the planned chunk size is never
re-fetched: such a chunk is not among the scheduled downloads; and when
every part file already matches its expected size, the scheduled download
list is empty (zero ranged requests) while assembly still runs on the
untouched disk state and produces the final file. -/
theorem resume_skips_matching (cs : List Chunk)
    (parts : Nat → Option (List Nat)) (w : Chunk → List Nat)
    (hnd : (cs.map Chunk.id).Nodup) :
    (∀ c ∈ cs, ∀ b, parts c.id = some b → (b.length : Int) = c.size →
      c ∉ (resumeFilter cs parts).1) ∧
    ((∀ c ∈ cs, parts c.id = some (w c) ∧ ((w c).length : Int) = c.size) →
      (resumeFilter cs parts).1 = [] ∧
      (assembleFile cs ⟨none, (resumeFilter cs parts).2⟩).2 = .complete ∧
      (assembleFile cs ⟨none, (resumeFilter cs parts).2⟩).1.dest
        = some (concatParts w cs)) := by
  refine ⟨resumeFilter_not_mem_of_match cs parts hnd, ?_⟩
  intro hall
  have hrf : resumeFilter cs parts = ([], parts) :=
    resumeFilter_all_match cs parts
      (fun c hc => ⟨w c, (hall c hc).1, (hall c hc).2⟩)
  rw [hrf]
  have h := assembleGo_all_present cs parts [] w hnd (fun c hc => (hall c hc).1)
  exact ⟨rfl, by simpa [assembleFile] using h.2.1,
    by simpa [assembleFile] using h.1⟩

/-- Witness for C8: two chunks of size 2, both part files already on disk
with matching sizes; nothing is scheduled and assembly produces the file. -/
theorem resume_skips_matching_witness :
    ((([⟨0, 0, 1, 2⟩, ⟨1, 2, 3, 2⟩] : List Chunk).map Chunk.id).Nodup) ∧
    ((∀ c ∈ ([⟨0, 0, 1, 2⟩, ⟨1, 2, 3, 2⟩] : List Chunk), ∀ b,
      (fun j => if j = 0 then some [1, 2] else
        if j = 1 then some [3, 4] else none) c.id = some b →
      (b.length : Int) = c.size →
      c ∉ (resumeFilter [⟨0, 0, 1, 2⟩, ⟨1, 2, 3, 2⟩]
        (fun j => if j = 0 then some [1, 2] else
          if j = 1 then some [3, 4] else none)).1) ∧
    ((∀ c ∈ ([⟨0, 0, 1, 2⟩, ⟨1, 2, 3, 2⟩] : List Chunk),
      (fun j => if j = 0 then some [1, 2] else
        if j = 1 then some [3, 4] else none) c.id
          = some ((fun c : Chunk => if c.id = 0 then [1, 2] else [3, 4]) c) ∧
      (((fun c : Chunk => if c.id = 0 then [1, 2] else [3, 4]) c).length : Int)
          = c.size) →
      (resumeFilter [⟨0, 0, 1, 2⟩, ⟨1, 2, 3, 2⟩]
        (fun j => if j = 0 then some [1, 2] else
          if j = 1 then some [3, 4] else none)).1 = [] ∧
      (assembleFile [⟨0, 0, 1, 2⟩, ⟨1, 2, 3, 2⟩]
        ⟨none, (resumeFilter [⟨0, 0, 1, 2⟩, ⟨1, 2, 3, 2⟩]
          (fun j => if j = 0 then some [1, 2] else
            if j = 1 then some [3, 4] else none)).2⟩).2 = .complete ∧
      (assembleFile [⟨0, 0, 1, 2⟩, ⟨1, 2, 3, 2⟩]
        ⟨none, (resumeFilter [⟨0, 0, 1, 2⟩, ⟨1, 2, 3, 2⟩]
          (fun j => if j = 0 then some [1, 2] else
            if j = 1 then some [3, 4] else none)).2⟩).1.dest
        = some (concatParts (fun c : Chunk => if c.id = 0 then [1, 2] else [3, 4])
            [⟨0, 0, 1, 2⟩, ⟨1, 2, 3, 2⟩]))) :=
  ⟨by decide,
   resume_skips_matching [⟨0, 0, 1, 2⟩, ⟨1, 2, 3, 2⟩]
     (fun j => if j = 0 then some [1, 2] else
       if j = 1 then some [3, 4] else none)
     (fun c : Chunk => if c.id = 0 then [1, 2] else [3, 4])
     (by decide)⟩

/-- A part file of the wrong size is deleted by the resume check, and its
chunk is scheduled for re-download. -/
lemma resumeFilter_mismatch_deleted (cs : List Chunk) :
    ∀ (parts : Nat → Option (List Nat)), (cs.map Chunk.id).Nodup →
      ∀ c ∈ cs, ∀ b, parts c.id = some b → (b.length : Int) ≠ c.size →
        (resumeFilter cs parts).2 c.id = none ∧
        c ∈ (resumeFilter cs parts).1 := by
  induction cs with
  | nil => intro parts _ c hc; cases hc
  | cons x rest ih =>
      intro parts hnd c hc b hb hsz
      have hnd' := (List.nodup_cons.mp hnd).2
      have hxid := (List.nodup_cons.mp hnd).1
      rcases List.mem_cons.mp hc with hcx | hcr
      · subst hcx
        rw [resumeFilter_cons_del c rest parts b hb hsz]
        refine ⟨resumeFilter_none_mono rest _ c.id (by simp), List.mem_cons_self c _⟩
      · have hcid_ne : c.id ≠ x.id := by
          intro h
          exact hxid (h ▸ List.mem_map_of_mem Chunk.id hcr)
        cases hp : parts x.id with
        | some bx =>
            by_cases hszx : (bx.length : Int) = x.size
            · rw [resumeFilter_cons_skip x rest parts bx hp hszx]
              exact ih parts hnd' c hcr b hb hsz
            · rw [resumeFilter_cons_del x rest parts bx hp hszx]
              have hb' : (fun j => if j = x.id then none else parts j) c.id
                  = some b := by simp [hcid_ne, hb]
              have h := ih (fun j => if j = x.id then none else parts j)
                hnd' c hcr b hb' hsz
              exact ⟨h.1, List.mem_cons_of_mem x h.2⟩
        | none =>
            rw [resumeFilter_cons_missing x rest parts hp]
            have h := ih parts hnd' c hcr b hb hsz
            exact ⟨h.1, List.mem_cons_of_mem x h.2⟩

/-- Any chunk the resume check does not schedule still has its part file on
disk afterwards, with exactly the expected size. -/
lemma resumeFilter_skipped_intact (cs : List Chunk) :
    ∀ (parts : Nat → Option (List Nat)), (cs.map Chunk.id).Nodup →
      ∀ c ∈ cs, c ∉ (resumeFilter cs parts).1 →
        ∃ b, (resumeFilter cs parts).2 c.id = some b ∧
          (b.length : Int) = c.size := by
  induction cs with
  | nil => intro parts _ c hc; cases hc
  | cons x rest ih =>
      intro parts hnd c hc hnotin
      have hnd' := (List.nodup_cons.mp hnd).2
      have hxid := (List.nodup_cons.mp hnd).1
      rcases List.mem_cons.mp hc with hcx | hcr
      · subst hcx
        cases hp : parts c.id with
        | some b =>
            by_cases hsz : (b.length : Int) = c.size
            · rw [resumeFilter_cons_skip c rest parts b hp hsz] at hnotin ⊢
              refine ⟨b, ?_, hsz⟩
              rw [resumeFilter_preserves rest parts c.id hxid]
              exact hp
            · rw [resumeFilter_cons_del c rest parts b hp hsz] at hnotin
              exact absurd (List.mem_cons_self c _) hnotin
        | none =>
            rw [resumeFilter_cons_missing c rest parts hp] at hnotin
            exact absurd (List.mem_cons_self c _) hnotin
      · cases hp : parts x.id with
        | some bx =>
            by_cases hszx : (bx.length : Int) = x.size
            · rw [resumeFilter_cons_skip x rest parts bx hp hszx] at hnotin ⊢
              exact ih parts hnd' c hcr hnotin
            · rw [resumeFilter_cons_del x rest parts bx hp hszx] at hnotin ⊢
              exact ih _ hnd' c hcr
                (fun h => hnotin (List.mem_cons_of_mem x h))
        | none =>
            rw [resumeFilter_cons_missing x rest parts hp] at hnotin ⊢
            exact ih parts hnd' c hcr
              (fun h => hnotin (List.mem_cons_of_mem x h))

/-- C10: during the resume check an existing part file whose size differs
from the planned chunk size is deleted and its chunk scheduled for
re-download; consequently, after the check, every chunk that was skipped
(not scheduled) still has a part file on disk of exactly its expected
size. -/
theorem resume_deletes_mismatched (cs : List Chunk)
    (parts : Nat → Option (List Nat)) (hnd : (cs.map Chunk.id).Nodup) :
    (∀ c ∈ cs, ∀ b, parts c.id = some b → (b.length : Int) ≠ c.size →
      (resumeFilter cs parts).2 c.id = none ∧
      c ∈ (resumeFilter cs parts).1) ∧
    (∀ c ∈ cs, c ∉ (resumeFilter cs parts).1 →
      ∃ b, (resumeFilter cs parts).2 c.id = some b ∧
        (b.length : Int) = c.size) :=
  ⟨resumeFilter_mismatch_deleted cs parts hnd,
   resumeFilter_skipped_intact cs parts hnd⟩

/-- Witness for C10: chunk 0's part has the wrong size (1 byte instead of
2) and chunk 1's part matches. -/
theorem resume_deletes_mismatched_witness :
    ((([⟨0, 0, 1, 2⟩, ⟨1, 2, 3, 2⟩] : List Chunk).map Chunk.id).Nodup) ∧
    ((∀ c ∈ ([⟨0, 0, 1, 2⟩, ⟨1, 2, 3, 2⟩] : List Chunk), ∀ b,
      (fun j => if j = 0 then some [9] else
        if j = 1 then some [3, 4] else none) c.id = some b →
      (b.length : Int) ≠ c.size →
      (resumeFilter [⟨0, 0, 1, 2⟩, ⟨1, 2, 3, 2⟩]
        (fun j => if j = 0 then some [9] else
          if j = 1 then some [3, 4] else none)).2 c.id = none ∧
      c ∈ (resumeFilter [⟨0, 0, 1, 2⟩, ⟨1, 2, 3, 2⟩]
        (fun j => if j = 0 then some [9] else
          if j = 1 then some [3, 4] else none)).1) ∧
    (∀ c ∈ ([⟨0, 0, 1, 2⟩, ⟨1, 2, 3, 2⟩] : List Chunk),
      c ∉ (resumeFilter [⟨0, 0, 1, 2⟩, ⟨1, 2, 3, 2⟩]
        (fun j => if j = 0 then some [9] else
          if j = 1 then some [3, 4] else none)).1 →
      ∃ b, (resumeFilter [⟨0, 0, 1, 2⟩, ⟨1, 2, 3, 2⟩]
        (fun j => if j = 0 then some [9] else
          if j = 1 then some [3, 4] else none)).2 c.id = some b ∧
        (b.length : Int) = c.size)) :=
  ⟨by decide,
   resume_deletes_mismatched [⟨0, 0, 1, 2⟩, ⟨1, 2, 3, 2⟩]
     (fun j => if j = 0 then some [9] else
       if j = 1 then some [3, 4] else none)
     (by decide)⟩

/-! ### Key exchange loop (`K2SAPI.generate_download_urls`, src/k2s.py) -/

/-- One `getUrl` exchange response, classified exactly as the code's
priority order reads a JSON reply (k2s.py lines 94-128): an error status is
checked first, then the presence of `time_wait` (whose reply may or may not
also carry `free_download_key`), then a direct `url`, then a bare
`free_download_key`; a reply with none of these falls through, and a raised
network exception is `netFail`. -/
inductive ApiResp where
  | apiError (msg : String)
  | timeWait (w : Int) (key : Option String)
  | urlResp (u : String)
  | keyResp (k : String)
  | emptyResp
  | netFail
  deriving Repr, DecidableEq

/-- Outcome of the candidate loop: terminal not-found, an early direct-URL
return, a key bound to the proxy that produced it, or fall-through to the
`raise K2SError(...)` at line 137 (which also catches a `time_wait` reply
that carried no key). -/
inductive KeyPhase where
  | notFound
  | direct (u : String)
  | bound (key : String) (proxy : Option String)
  | exhausted
  deriving Repr, DecidableEq

/-- Trace of the candidate loop: the candidates actually sent an exchange
request (in order), the number of fresh challenges requested inside the
loop, and the outcome. -/
structure ExchangeTrace where
  attempts : List (Option String)
  captchas : Nat
  outcome : KeyPhase
  deriving Repr, DecidableEq

/-- The `for proxy in proxies` loop of `generate_download_urls` (k2s.py
lines 76-134), with each candidate paired with the scripted response its
single exchange attempt receives.  `"Invalid captcha code"` requests a
fresh challenge and `continue`s; `"File not found"` raises immediately;
any other API error, an over-ceiling wait, an empty reply, or a network
failure `continue`s; a wait of at most 60 seconds or a bare key binds and
breaks; a direct URL returns at once. -/
def exchangeLoop : List (Option String × ApiResp) → ExchangeTrace
  | [] => ⟨[], 0, .exhausted⟩
  | (p, r) :: rest =>
    match r with
    | .apiError msg =>
        if msg = "Invalid captcha code" then
          let t := exchangeLoop rest
          ⟨p :: t.attempts, t.captchas + 1, t.outcome⟩
        else if msg = "File not found" then ⟨[p], 0, .notFound⟩
        else
          let t := exchangeLoop rest
          ⟨p :: t.attempts, t.captchas, t.outcome⟩
    | .timeWait w key =>
        if w > 60 then
          let t := exchangeLoop rest
          ⟨p :: t.attempts, t.captchas, t.outcome⟩
        else
          match key with
          | some k => ⟨[p], 0, .bound k p⟩
          | none => ⟨[p], 0, .exhausted⟩
    | .urlResp u => ⟨[p], 0, .direct u⟩
    | .keyResp k => ⟨[p], 0, .bound k p⟩
    | .emptyResp =>
        let t := exchangeLoop rest
        ⟨p :: t.attempts, t.captchas, t.outcome⟩
    | .netFail =>
        let t := exchangeLoop rest
        ⟨p :: t.attempts, t.captchas, t.outcome⟩

/-- The candidate sequence the loop iterates over (k2s.py line 65):
the proxy pool's full list when a manager is configured, otherwise the
single direct (no-proxy) candidate `None`. -/
def candidatesOf (managerPresent : Bool) (pool : List String) :
    List (Option String) :=
  if managerPresent then pool.map some else [none]

/-- Session-level error raised out of `generate_download_urls`. -/
inductive K2SErr where
  | fileNotFound
  | couldNotGenerate
  deriving Repr, DecidableEq

/-- Full trace of `generate_download_urls`: the exchange-loop trace, the
number of post-binding URL-generation calls issued, and the final result. -/
structure GenTrace where
  exchange : ExchangeTrace
  urlCalls : Nat
  result : Except K2SErr (List String)
  deriving Repr

/-- `generate_download_urls` after the loop (k2s.py lines 136-158): a
not-found raise propagates; a direct URL was already returned; no bound
key raises `K2SError`; otherwise `count` URL-generation calls are issued
through the bound proxy, collecting the successful ones (`phase2 i` is the
URL the `i`-th call yields, if any). -/
def generateDownloadUrls (cands : List (Option String × ApiResp))
    (count : Nat) (phase2 : Nat → Option String) : GenTrace :=
  let t := exchangeLoop cands
  match t.outcome with
  | .notFound => ⟨t, 0, .error .fileNotFound⟩
  | .direct u => ⟨t, 0, .ok [u]⟩
  | .exhausted => ⟨t, 0, .error .couldNotGenerate⟩
  | .bound _ _ => ⟨t, count, .ok ((List.range count).filterMap phase2)⟩

/-- C4 counterexample: one candidate answers "Invalid captcha code" and the
next candidate would bind a key.  The code requests a fresh challenge but
`continue`s to the NEXT candidate: the second proxy is attempted and the
key binds to it, so the exchange is not retried at the same candidate
sequence position. -/
theorem invalid_captcha_advances_cex :
    (exchangeLoop [(some "p1", .apiError "Invalid captcha code"),
        (some "p2", .keyResp "k")]).attempts = [some "p1", some "p2"] ∧
    (exchangeLoop [(some "p1", .apiError "Invalid captcha code"),
        (some "p2", .keyResp "k")]).captchas = 1 ∧
    (exchangeLoop [(some "p1", .apiError "Invalid captcha code"),
        (some "p2", .keyResp "k")]).outcome = .bound "k" (some "p2") ∧
    some "p2" ∈ (exchangeLoop [(some "p1", .apiError "Invalid captcha code"),
        (some "p2", .keyResp "k")]).attempts := by
  refine ⟨by decide, by decide, by decide, by decide⟩

/-- C4 amended: on an invalid-challenge response the machine does request a
fresh challenge, but the `continue` advances the `for proxy in proxies`
loop: the remaining candidates are processed exactly as if the current one
had never existed, i.e. the same candidate position is not retried. -/
theorem invalid_captcha_advances (p : Option String)
    (rest : List (Option String × ApiResp)) :
    (exchangeLoop ((p, .apiError "Invalid captcha code") :: rest)).attempts
      = p :: (exchangeLoop rest).attempts ∧
    (exchangeLoop ((p, .apiError "Invalid captcha code") :: rest)).captchas
      = (exchangeLoop rest).captchas + 1 ∧
    (exchangeLoop ((p, .apiError "Invalid captcha code") :: rest)).outcome
      = (exchangeLoop rest).outcome := by
  have hstep : exchangeLoop ((p, .apiError "Invalid captcha code") :: rest)
      = ⟨p :: (exchangeLoop rest).attempts, (exchangeLoop rest).captchas + 1,
          (exchangeLoop rest).outcome⟩ := by
    conv_lhs => unfold exchangeLoop
    simp
  rw [hstep]
  exact ⟨rfl, rfl, rfl⟩

/-- C5 counterexample: with a proxy manager configured and an empty
confirmed set, the candidate list is empty, so the loop makes zero exchange
attempts (in particular no direct attempt) and the session fails at once
with the could-not-generate error. -/
theorem empty_pool_no_direct_attempt_cex :
    candidatesOf true [] = [] ∧
    (exchangeLoop ((candidatesOf true []).map
        (fun p => (p, ApiResp.netFail)))).attempts = [] ∧
    (exchangeLoop ((candidatesOf true []).map
        (fun p => (p, ApiResp.netFail)))).outcome = .exhausted ∧
    (generateDownloadUrls ((candidatesOf true []).map
        (fun p => (p, ApiResp.netFail))) 3 (fun _ => none)).result
      = .error .couldNotGenerate :=
  ⟨rfl, rfl, rfl, rfl⟩

/-- C5 amended: when `get_all()` returns an empty confirmed set while a
proxy manager is configured, the candidate list is empty: no exchange
attempt at all is made (not even a direct one) and the session fails with
the exhausted-candidates error.  The single direct (no-proxy) attempt
happens only when no proxy manager is configured. -/
theorem empty_pool_fails_without_direct_attempt :
    (∀ (count : Nat) (phase2 : Nat → Option String),
      candidatesOf true [] = [] ∧
      (exchangeLoop ((candidatesOf true []).map
          (fun p => (p, ApiResp.netFail)))).attempts = [] ∧
      (generateDownloadUrls ((candidatesOf true []).map
          (fun p => (p, ApiResp.netFail))) count phase2).result
        = .error .couldNotGenerate) ∧
    (∀ (pool : List String) (r : ApiResp),
      candidatesOf false pool = [none] ∧
      (exchangeLoop ((candidatesOf false pool).map
          (fun p => (p, r)))).attempts = [none]) := by
  constructor
  · intro count phase2
    exact ⟨rfl, rfl, rfl⟩
  · intro pool r
    refine ⟨rfl, ?_⟩
    show (exchangeLoop [(none, r)]).attempts = [none]
    cases r with
    | apiError msg =>
        unfold exchangeLoop
        simp only []
        split_ifs <;> simp [exchangeLoop]
    | timeWait w key =>
        unfold exchangeLoop
        simp only []
        split_ifs
        · simp [exchangeLoop]
        · cases key <;> simp
    | urlResp u => rfl
    | keyResp k => rfl
    | emptyResp => simp [exchangeLoop]
    | netFail => simp [exchangeLoop]

/-- C7: an exchange attempt answered with "File not found" raises
immediately: exactly one attempt was made regardless of the remaining
candidates, no fresh challenge is requested, the loop outcome is the
terminal not-found failure, zero URL-generation calls are issued, and the
session result is the not-found error. -/
theorem file_not_found_terminal (p : Option String)
    (rest : List (Option String × ApiResp)) (count : Nat)
    (phase2 : Nat → Option String) :
    (exchangeLoop ((p, .apiError "File not found") :: rest)).attempts = [p] ∧
    (exchangeLoop ((p, .apiError "File not found") :: rest)).captchas = 0 ∧
    (exchangeLoop ((p, .apiError "File not found") :: rest)).outcome
      = .notFound ∧
    (generateDownloadUrls ((p, .apiError "File not found") :: rest)
      count phase2).urlCalls = 0 ∧
    (generateDownloadUrls ((p, .apiError "File not found") :: rest)
      count phase2).result = .error .fileNotFound := by
  have hstep : exchangeLoop ((p, .apiError "File not found") :: rest)
      = ⟨[p], 0, .notFound⟩ := by
    unfold exchangeLoop
    simp
  refine ⟨by rw [hstep], by rw [hstep], by rw [hstep], ?_, ?_⟩
  · unfold generateDownloadUrls
    rw [hstep]
  · unfold generateDownloadUrls
    rw [hstep]

/-! ### Chunk fetch retry loop (`Downloader._download_chunk`, main.py) -/

/-- What one ranged request attempt observes: success, an HTTP error with a
status code (`raise_for_status`), or any other exception (timeout,
connection error, ...). -/
inductive FetchResp where
  | success
  | httpErr (code : Nat)
  | otherErr
  deriving Repr, DecidableEq

/-- How the retry loop ends: a successful write-and-return; an immediately
raised non-rate-limit HTTP error; the raise on the last attempt of a
non-HTTP failure; or falling out of the loop after a rate-limit sleep on
the final attempt (the function then returns with the chunk unfetched). -/
inductive ChunkOutcome where
  | done
  | httpFail (code : Nat)
  | failAfterRetries
  | silentExhaust
  deriving Repr, DecidableEq

/-- Trace of `_download_chunk`'s loop: number of attempts performed, the
rate-limit backoff sleeps in the order they happen, and the outcome. -/
structure FetchTrace where
  attempts : Nat
  rlDelays : List Nat
  outcome : ChunkOutcome
  deriving Repr, DecidableEq

/-- `max_retries = 5` (main.py line 139). -/
def maxRetries : Nat := 5

/-- The body of `for attempt in range(max_retries)` (main.py lines 140-159),
driven by a script `resp` giving the result of the request at each attempt
index: success writes and returns; HTTP status 429, 509 or 503 sleeps
`(attempt + 1) * 5` seconds and continues; any other HTTP error raises at
once; any other exception raises on the last attempt and otherwise sleeps
2 seconds and continues. -/
def dlGo (resp : Nat → FetchResp) (maxR attempt : Nat) : FetchTrace :=
  if h : attempt < maxR then
    match resp attempt with
    | .success => ⟨1, [], .done⟩
    | .httpErr c =>
        if c = 429 ∨ c = 509 ∨ c = 503 then
          let t := dlGo resp maxR (attempt + 1)
          ⟨t.attempts + 1, (attempt + 1) * 5 :: t.rlDelays, t.outcome⟩
        else ⟨1, [], .httpFail c⟩
    | .otherErr =>
        if attempt = maxR - 1 then ⟨1, [], .failAfterRetries⟩
        else
          let t := dlGo resp maxR (attempt + 1)
          ⟨t.attempts + 1, t.rlDelays, t.outcome⟩
  else ⟨0, [], .silentExhaust⟩
termination_by maxR - attempt
decreasing_by omega

/-- `_download_chunk` runs the loop from attempt 0 with the cap of 5. -/
def downloadChunk (resp : Nat → FetchResp) : FetchTrace :=
  dlGo resp maxRetries 0

/-- Loop invariant: starting at `attempt`, at most `maxR - attempt` further
attempts happen, and the recorded rate-limit delays are strictly
increasing, each of the form `(i + 1) * 5` for some attempt index
`attempt ≤ i < maxR`. -/
lemma dlGo_spec (resp : Nat → FetchResp) (maxR : Nat) :
    ∀ (n attempt : Nat), maxR - attempt ≤ n →
      (dlGo resp maxR attempt).attempts ≤ maxR - attempt ∧
      List.Pairwise (· < ·) (dlGo resp maxR attempt).rlDelays ∧
      (∀ d ∈ (dlGo resp maxR attempt).rlDelays,
        (attempt + 1) * 5 ≤ d ∧
        ∃ i, attempt ≤ i ∧ i < maxR ∧ d = (i + 1) * 5) := by
  intro n
  induction n with
  | zero =>
      intro attempt h
      have hge : ¬ attempt < maxR := by omega
      rw [dlGo]
      rw [dif_neg hge]
      exact ⟨Nat.zero_le _, List.Pairwise.nil, fun d hd => absurd hd (by simp)⟩
  | succ n ih =>
      intro attempt h
      by_cases hlt : attempt < maxR
      · rw [dlGo, dif_pos hlt]
        cases hres : resp attempt with
        | success =>
            simp only []
            exact ⟨by omega, List.Pairwise.nil, fun d hd => absurd hd (by simp)⟩
        | httpErr c =>
            simp only []
            by_cases hrl : c = 429 ∨ c = 509 ∨ c = 503
            · rw [if_pos hrl]
              have hrec := ih (attempt + 1) (by omega)
              simp only []
              refine ⟨by have := hrec.1; omega, ?_, ?_⟩
              · refine List.pairwise_cons.mpr ⟨?_, hrec.2.1⟩
                intro d hd
                have := (hrec.2.2 d hd).1
                omega
              · intro d hd
                rcases List.mem_cons.mp hd with hd | hd
                · subst hd
                  exact ⟨le_refl _, attempt, le_refl _, hlt, rfl⟩
                · obtain ⟨hle, i, hi1, hi2, hi3⟩ := hrec.2.2 d hd
                  exact ⟨by omega, i, by omega, hi2, hi3⟩
            · rw [if_neg hrl]
              exact ⟨by show 1 ≤ maxR - attempt; omega,
                List.Pairwise.nil, fun d hd => absurd hd (by simp)⟩
        | otherErr =>
            simp only []
            by_cases hlast : attempt = maxR - 1
            · rw [if_pos hlast]
              exact ⟨by show 1 ≤ maxR - attempt; omega,
                List.Pairwise.nil, fun d hd => absurd hd (by simp)⟩
            · rw [if_neg hlast]
              have hrec := ih (attempt + 1) (by omega)
              simp only []
              refine ⟨by have := hrec.1; omega, hrec.2.1, ?_⟩
              intro d hd
              obtain ⟨hle, i, hi1, hi2, hi3⟩ := hrec.2.2 d hd
              exact ⟨by omega, i, by omega, hi2, hi3⟩
      · rw [dlGo, dif_neg hlt]
        exact ⟨Nat.zero_le _, List.Pairwise.nil, fun d hd => absurd hd (by simp)⟩

/-- C9: the fetch-retry loop of `_download_chunk` performs at most
`max_retries = 5` attempts for any response script (so it terminates), and
the rate-limited backoff delays it sleeps form a strictly increasing
sequence, each equal to `(attemptIndex + 1) * 5` seconds for an attempt
index below the cap. -/
theorem download_chunk_bounded (resp : Nat → FetchResp) :
    (downloadChunk resp).attempts ≤ maxRetries ∧
    List.Pairwise (· < ·) (downloadChunk resp).rlDelays ∧
    (∀ d ∈ (downloadChunk resp).rlDelays,
      ∃ i, i < maxRetries ∧ d = (i + 1) * 5) := by
  have h := dlGo_spec resp maxRetries maxRetries 0 (by omega)
  refine ⟨by simpa [downloadChunk] using h.1, h.2.1, ?_⟩
  intro d hd
  obtain ⟨_, i, _, hi2, hi3⟩ := h.2.2 d hd
  exact ⟨i, hi2, hi3⟩
